import Mathlib

/-!
# Gray code visualizer: the computational core of `src/GrayCodeVisualizer.js`

The component generates the binary reflected Gray code sequence, finds the bit that changed
between two consecutive codes and shows the value of a code read as a binary numeral.

Modelling conventions.

* A JavaScript string is the list of its characters (`JSString`).
* A JavaScript array is a list of fewer than `2 ^ 32` elements; `push` appends at the end and
  throws a `RangeError` when the array is full.
* A number that holds a natural is exact up to `2 ^ 53`; `Math.pow(2, n)` is `Infinity` from
  `n = 1024`.
* A function that can throw returns `Except`.
* The operators `^` and `>>` work on 32-bit signed integers: both operands go through
  `ToInt32`, which is written out below with explicit remainders modulo `2 ^ 32`.
* `null` is `none`.
-/

namespace GrayCodeVisualizer

/-- A JavaScript string, as the list of its characters. -/
abbrev JSString := List Char

/-! ## 32-bit integer operators -/

/-- The abstract operation `ToUint32`: the residue modulo `2 ^ 32`. -/
def toUint32 (x : Int) : Nat := (x % 4294967296).toNat

/-- The abstract operation `ToInt32`: the residue modulo `2 ^ 32` read as a signed number. -/
def toInt32 (x : Int) : Int :=
  if toUint32 x < 2147483648 then (toUint32 x : Int) else (toUint32 x : Int) - 4294967296

/-- The operator `a ^ b`: exclusive or of the two's complement bit patterns. -/
def jsXor (a b : Int) : Int := toInt32 ((toUint32 a ^^^ toUint32 b : Nat) : Int)

/-- The operator `a >> b`: sign-propagating right shift by `b` modulo 32 places. -/
def jsShiftRight (a b : Int) : Int := toInt32 a / (2 : Int) ^ (toUint32 b % 32)

/-! ## String helpers -/

/-- The digit character of a bit. -/
def bitChar (b : Bool) : Char := if b then '1' else '0'

/-- Digits of a natural number in base 2, accumulated from the least significant one.
The first argument bounds the number of digits and is always large enough at the call below. -/
def toBinaryDigits : Nat → Nat → List Char → List Char
  | 0, _, acc => acc
  | fuel + 1, v, acc =>
    if v / 2 = 0 then bitChar (v % 2 = 1) :: acc
    else toBinaryDigits fuel (v / 2) (bitChar (v % 2 = 1) :: acc)

/-- The call `x.toString(2)` on an integer-valued number. -/
def numberToString2 (x : Int) : JSString :=
  if x < 0 then '-' :: toBinaryDigits (x.natAbs + 1) x.natAbs []
  else toBinaryDigits (x.natAbs + 1) x.natAbs []

/-- The call `s.padStart(targetLength, fill)` with a one-character filler. -/
def padStart (s : JSString) (targetLength : Nat) (fill : Char) : JSString :=
  if targetLength ≤ s.length then s else List.replicate (targetLength - s.length) fill ++ s

/-- White space and line terminators skipped by `parseInt` in front of the numeral. -/
def isStrWhiteSpaceChar (c : Char) : Bool :=
  c.toNat ∈ [9, 10, 11, 12, 13, 32, 160, 5760, 8232, 8233, 8239, 8287, 12288, 65279]
    || (8192 ≤ c.toNat && c.toNat ≤ 8202)

/-- The value of a character as a digit, when it is a digit or a letter. -/
def digitValue (c : Char) : Option Nat :=
  if '0'.toNat ≤ c.toNat ∧ c.toNat ≤ '9'.toNat then some (c.toNat - '0'.toNat)
  else if 'a'.toNat ≤ c.toNat ∧ c.toNat ≤ 'z'.toNat then some (c.toNat - 'a'.toNat + 10)
  else if 'A'.toNat ≤ c.toNat ∧ c.toNat ≤ 'Z'.toNat then some (c.toNat - 'A'.toNat + 10)
  else none

/-- Whether a character is a digit of the given radix. -/
def isRadixDigit (radix : Nat) (c : Char) : Bool :=
  match digitValue c with
  | some d => decide (d < radix)
  | none => false

/-- The call `parseInt(string, radix)`; `none` stands for `NaN` and radix `0` for an omitted
radix. The value is computed exactly (a JavaScript number is exact below `2 ^ 53`). -/
def parseInt (string : JSString) (radix : Nat) : Option Int :=
  let s := string.dropWhile isStrWhiteSpaceChar
  let sign : Int := if s.head? = some '-' then -1 else 1
  let s := if s.head? = some '-' ∨ s.head? = some '+' then s.tail else s
  if radix ≠ 0 ∧ (radix < 2 ∨ 36 < radix) then none
  else
    let hexPrefix : Bool :=
      decide ((radix = 0 ∨ radix = 16) ∧ (s.take 2 = ['0', 'x'] ∨ s.take 2 = ['0', 'X']))
    let r := if hexPrefix then 16 else if radix = 0 then 10 else radix
    let s := if hexPrefix then s.drop 2 else s
    let z := s.takeWhile (isRadixDigit r)
    if z = [] then none
    else some (sign * ((z.foldl (fun acc ch => r * acc + (digitValue ch).getD 0) 0 : Nat) : Int))

/-! ## The component's functions -/

/-- The errors thrown by the modelled code. -/
inductive JSError
  | rangeError
  deriving DecidableEq

/-- The call `Math.pow(2, n)` for a natural `n`: the exact power below `2 ^ 1024`; `none` stands
for `Infinity`. -/
def mathPowTwo (n : Nat) : Option Nat := if n < 1024 then some (2 ^ n) else none

/-- The loop test `i < total`. -/
def lessThan (i : Nat) (total : Option Nat) : Bool :=
  match total with
  | some t => decide (i < t)
  | none => true

/-- The step `i++` on a number that holds a natural: exact below `2 ^ 53`, where the sum is
rounded back to `2 ^ 53`. -/
def increment (i : Nat) : Nat := if i < 9007199254740992 then i + 1 else i

/-- The call `result.push(x)`. The length of an array stays below `2 ^ 32`: the push that would
make it `2 ^ 32` throws a `RangeError`. -/
def push (result : List JSString) (x : JSString) : Except JSError (List JSString) :=
  if result.length + 1 < 4294967296 then Except.ok (result ++ [x])
  else Except.error JSError.rangeError

/-- The loop of `generateGrayCode`, entered with counter `i` and the array `result`. It ends when
the counter reaches `total` or when a push throws. -/
def generateGrayCodeLoop (n : Nat) (total : Option Nat) (i : Nat) (result : List JSString) :
    Except JSError (List JSString) :=
  if lessThan i total then
    let gray := jsXor (i : Int) (jsShiftRight (i : Int) 1)
    match h : push result (padStart (numberToString2 gray) n '0') with
    | Except.ok pushed => generateGrayCodeLoop n total (increment i) pushed
    | Except.error e => Except.error e
  else Except.ok result
termination_by 4294967296 - result.length
decreasing_by
  unfold push at h
  split at h
  · cases h
    simp only [List.length_append, List.length_singleton]
    omega
  · cases h

/-- The function `generateGrayCode`: the loop over `i = 0, 1, ...` below `Math.pow(2, n)` pushing
the digits of `i ^ (i >> 1)` padded to `n` characters. It returns the array, or throws when the
array cannot take another element. -/
def generateGrayCode (n : Nat) : Except JSError (List JSString) :=
  generateGrayCodeLoop n (mathPowTwo n) 0 []

/-- The loop of `getChangedBit`: `k` iterations remain, the next index is `i`. A missing
character (`undefined`) differs from every character. -/
def getChangedBitLoop (prev curr : JSString) : Nat → Nat → Int
  | 0, _ => -1
  | k + 1, i => if prev[i]? ≠ curr[i]? then (i : Int) else getChangedBitLoop prev curr k (i + 1)

/-- The function `getChangedBit`: `-1` when `prev` is falsy (`null` or the empty string),
otherwise the first index at which the two strings differ, or `-1` when there is none. -/
def getChangedBit (prev : Option JSString) (curr : JSString) : Int :=
  match prev with
  | none => -1
  | some p => if p = [] then -1 else getChangedBitLoop p curr p.length 0

/-- The function `binaryToDecimal`. -/
def binaryToDecimal (binary : JSString) : Option Int := parseInt binary 2

/-! ## The view state and its handlers -/

/-- The three tabs of the page. -/
inductive Tab
  | visualization
  | algorithm
  | applications
  deriving DecidableEq

/-- The state held by the component. -/
structure State where
  bits : Nat
  currentIndex : Nat
  isPlaying : Bool
  speed : Nat
  activeTab : Tab
  deriving DecidableEq

/-- The state of the first render. -/
def initialState : State :=
  { bits := 3, currentIndex := 0, isPlaying := false, speed := 1000, activeTab := Tab.visualization }

/-- The memoised value `graySequence`. A render in which `generateGrayCode` throws has no
sequence; this does not happen for the widths 2 to 6 of the slider. -/
def graySequence (s : State) : List JSString :=
  match generateGrayCode s.bits with
  | Except.ok sequence => sequence
  | Except.error _ => []

/-- The function `handleReset`. -/
def handleReset (s : State) : State := { s with currentIndex := 0, isPlaying := false }

/-- The timer callback of the auto-play effect. -/
def tick (s : State) : State :=
  { s with currentIndex := (s.currentIndex + 1) % (graySequence s).length }

/-- The `onChange` handler of the bit-width slider. -/
def changeBits (s : State) (value : Nat) : State :=
  { s with bits := value, currentIndex := 0, isPlaying := false }

/-- The `onClick` handler of entry `idx` of the complete sequence. -/
def clickEntry (s : State) (idx : Nat) : State :=
  { s with currentIndex := idx, isPlaying := false }

/-- One step of the user interface. The timer only runs while playing; the sliders, the buttons
and the sequence entries exist only on the visualization tab; the bit-width slider ranges over
2 to 6 and the speed slider over 200 to 2000 in steps of 200. -/
inductive Step : State → State → Prop
  | tick (s : State) : s.isPlaying = true → Step s (tick s)
  | click (s : State) (idx : Nat) : s.activeTab = Tab.visualization →
      idx < (graySequence s).length → Step s (clickEntry s idx)
  | reset (s : State) : s.activeTab = Tab.visualization → Step s (handleReset s)
  | changeBits (s : State) (value : Nat) : s.activeTab = Tab.visualization →
      2 ≤ value → value ≤ 6 → Step s (changeBits s value)
  | changeSpeed (s : State) (k : Nat) : s.activeTab = Tab.visualization →
      1 ≤ k → k ≤ 10 → Step s { s with speed := 200 * k }
  | togglePlay (s : State) : s.activeTab = Tab.visualization →
      Step s { s with isPlaying := !s.isPlaying }
  | selectTab (s : State) (tab : Tab) : Step s { s with activeTab := tab }

/-- The states the interface can be in. -/
inductive Reachable : State → Prop
  | init : Reachable initialState
  | step {s t : State} : Reachable s → Step s t → Reachable t

/-! ## The reflection construction printed on the algorithm tab -/

/-- The function `gray_code_recursive` of the algorithm tab. It only stops for `n ≥ 1`;
`none` stands for the unbounded recursion at `n = 0`. -/
def gray_code_recursive : Nat → Option (List JSString)
  | 0 => none
  | 1 => some [['0'], ['1']]
  | n + 2 =>
    match gray_code_recursive (n + 1) with
    | none => none
    | some prev => some (prev.map (fun code => '0' :: code) ++ prev.reverse.map (fun code => '1' :: code))

/-- The number of trailing zero bits of a positive number (`0` for `0`). The first argument
bounds the number of steps. -/
def trailingZerosAux : Nat → Nat → Nat
  | 0, _ => 0
  | fuel + 1, i => if i = 0 ∨ i % 2 = 1 then 0 else trailingZerosAux fuel (i / 2) + 1

/-- The number of trailing zero bits of `i`. -/
def trailingZeros (i : Nat) : Nat := trailingZerosAux i i

/-! ## Bit-level description of the rendered codes -/

/-- The `n`-digit binary numeral of `v`, most significant digit first. -/
def bitsMSB (n v : Nat) : List Char :=
  (List.range n).map (fun m => bitChar (v.testBit (n - 1 - m)))

/-- The entries pushed by a run of the loop of `generateGrayCode` that reaches `2 ^ n`. -/
def grayCodeList (n : Nat) : List JSString :=
  (List.range (2 ^ n)).map
    (fun i : Nat => padStart (numberToString2 (jsXor (i : Int) (jsShiftRight (i : Int) 1))) n '0')

/-- The value computed by `i ^ (i >> 1)`, as a natural number. -/
def grayValue (i : Nat) : Nat :=
  ((i % 4294967296) ^^^ (i % 4294967296 / 2)) % 2147483648

theorem bitsMSB_length (n v : Nat) : (bitsMSB n v).length = n := by
  simp [bitsMSB]

theorem bitsMSB_getElem? (n v m : Nat) (h : m < n) :
    (bitsMSB n v)[m]? = some (bitChar (v.testBit (n - 1 - m))) := by
  simp [bitsMSB, List.getElem?_range h]

theorem bitsMSB_succ (n v : Nat) :
    bitsMSB (n + 1) v = bitsMSB n (v / 2) ++ [bitChar (v % 2 = 1)] := by
  unfold bitsMSB
  rw [List.range_succ, List.map_append]
  congr 1
  · apply List.map_congr_left
    intro m hm
    have hm' : m < n := List.mem_range.mp hm
    have e : n + 1 - 1 - m = (n - 1 - m) + 1 := by omega
    rw [e, Nat.testBit_succ]
  · simp

theorem bitsMSB_zero_right (n : Nat) : bitsMSB n 0 = List.replicate n '0' := by
  induction n with
  | zero => rfl
  | succ n ih =>
    rw [bitsMSB_succ, Nat.zero_div, ih]
    simp [bitChar, List.replicate_succ']

theorem toBinaryDigits_spec (fuel : Nat) :
    ∀ (v : Nat) (acc : List Char) (n : Nat), v < fuel → v < 2 ^ n → 1 ≤ n →
      ∃ z, z + (toBinaryDigits fuel v acc).length = n + acc.length ∧
        List.replicate z '0' ++ toBinaryDigits fuel v acc = bitsMSB n v ++ acc := by
  induction fuel with
  | zero => intro v acc n h; omega
  | succ f ih =>
    intro v acc n hv hn h1
    obtain ⟨k, rfl⟩ : ∃ k, n = k + 1 := ⟨n - 1, by omega⟩
    unfold toBinaryDigits
    by_cases h0 : v / 2 = 0
    · rw [if_pos h0]
      refine ⟨k, by simp; omega, ?_⟩
      rw [bitsMSB_succ, h0, bitsMSB_zero_right]
      simp
    · rw [if_neg h0]
      have hk : 1 ≤ k := by
        rcases k with _ | k
        · simp at hn; omega
        · omega
      have hv2 : v / 2 < 2 ^ k := by
        rw [Nat.pow_succ] at hn; omega
      obtain ⟨z, hz, hz2⟩ := ih (v / 2) (bitChar (v % 2 = 1) :: acc) k (by omega) hv2 hk
      refine ⟨z, by simp at hz ⊢; omega, ?_⟩
      rw [hz2, bitsMSB_succ]
      simp

theorem numberToString2_natCast (v : Nat) :
    numberToString2 (v : Int) = toBinaryDigits (v + 1) v [] := by
  unfold numberToString2
  simp

theorem padStart_numberToString2 (n v : Nat) (h1 : 1 ≤ n) (hv : v < 2 ^ n) :
    padStart (numberToString2 (v : Int)) n '0' = bitsMSB n v := by
  rw [numberToString2_natCast]
  obtain ⟨z, hz, hz2⟩ := toBinaryDigits_spec (v + 1) v [] n (by omega) hv h1
  simp only [List.append_nil, List.length_nil, Nat.add_zero] at hz hz2
  unfold padStart
  split
  · have : z = 0 := by omega
    subst this
    simpa using hz2
  · have : n - (toBinaryDigits (v + 1) v []).length = z := by omega
    rw [this, hz2]

theorem toUint32_natCast (i : Nat) : toUint32 (i : Int) = i % 4294967296 := by
  unfold toUint32
  omega

theorem toInt32_of_lt (v : Nat) (h : v < 2147483648) : toInt32 (v : Int) = (v : Int) := by
  unfold toInt32
  rw [toUint32_natCast]
  have : v % 4294967296 = v := by omega
  rw [this, if_pos h]

theorem testBit_31_of_ge (u : Nat) (h1 : 2147483648 ≤ u) (h2 : u < 4294967296) :
    u.testBit 31 = true := by
  rw [Nat.testBit_to_div_mod]
  simp only [decide_eq_true_eq]
  norm_num
  omega

theorem xor_high_half (u : Nat) (h1 : 2147483648 ≤ u) (h2 : u < 4294967296) :
    u ^^^ (u / 2 + 2147483648) = (u ^^^ (u / 2)) % 2147483648 := by
  have e : u / 2 + 2147483648 = 2 ^ 31 * 1 + u / 2 := by norm_num; omega
  have hlt : u / 2 < 2 ^ 31 := by norm_num; omega
  have e2 : (2147483648 : Nat) = 2 ^ 31 := by norm_num
  apply Nat.eq_of_testBit_eq
  intro j
  rw [e, e2, Nat.testBit_mod_two_pow, Nat.testBit_xor, Nat.testBit_xor,
    Nat.testBit_mul_pow_two_add 1 hlt]
  by_cases hj : j < 31
  · simp [hj]
  · simp only [hj, if_false, decide_False, Bool.false_and]
    rcases Nat.eq_or_lt_of_le (Nat.le_of_not_lt hj) with h | h
    · subst h
      rw [testBit_31_of_ge u h1 h2]
      simp
    · have : u.testBit j = false := by
        apply Nat.testBit_lt_two_pow
        calc u < 2 ^ 32 := by norm_num; omega
          _ ≤ 2 ^ j := Nat.pow_le_pow_right (by norm_num) (by omega)
      rw [this]
      obtain ⟨d, hd⟩ : ∃ d, j - 31 = d + 1 := ⟨j - 32, by omega⟩
      rw [hd, Nat.testBit_succ]
      simp

theorem jsGray_eq (i : Nat) :
    jsXor (i : Int) (jsShiftRight (i : Int) 1) = (grayValue i : Int) := by
  have h1 : toUint32 (1 : Int) % 32 = 1 := by decide
  unfold jsXor jsShiftRight
  rw [h1, toUint32_natCast]
  have hu : i % 4294967296 < 4294967296 := Nat.mod_lt _ (by norm_num)
  generalize hU : i % 4294967296 = u at hu
  have hg : grayValue i = (u ^^^ (u / 2)) % 2147483648 := by
    unfold grayValue
    rw [hU]
  have hglt : grayValue i < 2147483648 := by
    rw [hg]
    exact Nat.mod_lt _ (by norm_num)
  by_cases hlt : u < 2147483648
  · have hs : toUint32 (toInt32 (i : Int) / (2 : Int) ^ 1) = u / 2 := by
      unfold toInt32
      rw [toUint32_natCast, hU, if_pos hlt]
      unfold toUint32
      omega
    rw [hs]
    have hx : u ^^^ (u / 2) < 2 ^ 31 :=
      Nat.xor_lt_two_pow (by norm_num; omega) (by norm_num; omega)
    have hx' : u ^^^ u / 2 < 2147483648 := by norm_num at hx; exact hx
    rw [hg, Nat.mod_eq_of_lt hx']
    exact toInt32_of_lt _ hx'
  · have hs : toUint32 (toInt32 (i : Int) / (2 : Int) ^ 1) = u / 2 + 2147483648 := by
      unfold toInt32
      rw [toUint32_natCast, hU, if_neg hlt]
      unfold toUint32
      omega
    rw [hs, xor_high_half u (by omega) hu, ← hg]
    exact toInt32_of_lt _ hglt

theorem grayValue_lt_two_pow_31 (i : Nat) : grayValue i < 2147483648 :=
  Nat.mod_lt _ (by norm_num)

theorem grayValue_of_lt (i : Nat) (h : i < 2147483648) : grayValue i = i ^^^ (i >>> 1) := by
  unfold grayValue
  have hx : i ^^^ (i / 2) < 2 ^ 31 :=
    Nat.xor_lt_two_pow (by norm_num; omega) (by norm_num; omega)
  have e : i % 4294967296 = i := by omega
  rw [e, Nat.shiftRight_eq_div_pow, Nat.pow_one]
  exact Nat.mod_eq_of_lt (by norm_num at hx; exact hx)

theorem two_pow_31 : (2 : Nat) ^ 31 = 2147483648 := by norm_num

theorem lt_two_pow_31 {n i : Nat} (hn : n ≤ 31) (hi : i < 2 ^ n) : i < 2147483648 := by
  rw [← two_pow_31]
  exact Nat.lt_of_lt_of_le hi (Nat.pow_le_pow_right (by norm_num) hn)

theorem grayValue_lt (n i : Nat) (hi : i < 2 ^ n) : grayValue i < 2 ^ n := by
  by_cases hn : n ≤ 31
  · rw [grayValue_of_lt i (lt_two_pow_31 hn hi), Nat.shiftRight_eq_div_pow, Nat.pow_one]
    exact Nat.xor_lt_two_pow hi (Nat.lt_of_le_of_lt (Nat.div_le_self i 2) hi)
  · calc grayValue i < 2147483648 := grayValue_lt_two_pow_31 i
      _ = 2 ^ 31 := two_pow_31.symm
      _ ≤ 2 ^ n := Nat.pow_le_pow_right (by norm_num) (by omega)

theorem grayCodeList_length (n : Nat) : (grayCodeList n).length = 2 ^ n := by
  simp [grayCodeList]

theorem grayCodeList_getElem?_code (n i : Nat) (hi : i < 2 ^ n) :
    (grayCodeList n)[i]? =
      some (padStart (numberToString2 (jsXor (i : Int) (jsShiftRight (i : Int) 1))) n '0') := by
  rw [grayCodeList, List.getElem?_map, List.getElem?_range hi]
  rfl

theorem grayCodeList_getElem? (n i : Nat) (h1 : 1 ≤ n) (hi : i < 2 ^ n) :
    (grayCodeList n)[i]? = some (bitsMSB n (grayValue i)) := by
  rw [grayCodeList_getElem?_code n i hi, jsGray_eq,
    padStart_numberToString2 n (grayValue i) h1 (grayValue_lt n i hi)]

theorem grayCodeList_eq_map_bits (n : Nat) (h1 : 1 ≤ n) :
    grayCodeList n = (List.range (2 ^ n)).map (fun i => bitsMSB n (grayValue i)) := by
  rw [grayCodeList]
  apply List.map_congr_left
  intro i hi
  have hi' : i < 2 ^ n := List.mem_range.mp hi
  rw [jsGray_eq, padStart_numberToString2 n (grayValue i) h1 (grayValue_lt n i hi')]

/-! ## When the generator returns -/

theorem generateGrayCodeLoop_ok (n t : Nat) (ht : t < 4294967296) :
    ∀ (k i : Nat) (result : List JSString), i + k = t → result.length = i →
      generateGrayCodeLoop n (some t) i result =
        Except.ok (result ++ (List.range' i k).map (fun i : Nat =>
          padStart (numberToString2 (jsXor (i : Int) (jsShiftRight (i : Int) 1))) n '0')) := by
  intro k
  induction k with
  | zero =>
    intro i result hik hlen
    rw [generateGrayCodeLoop]
    have hl : lessThan i (some t) = false := by
      simp only [lessThan, decide_eq_false_iff_not]
      omega
    simp [hl]
  | succ k ih =>
    intro i result hik hlen
    rw [generateGrayCodeLoop]
    have hl : lessThan i (some t) = true := by
      simp only [lessThan, decide_eq_true_eq]
      omega
    have hinc : increment i = i + 1 := by
      unfold increment
      rw [if_pos (by omega)]
    have hlen2 : ∀ x : JSString, (result ++ [x]).length = i + 1 := by
      intro x
      simp [hlen]
    simp only [hl, if_true]
    split
    · next pushed heq =>
      unfold push at heq
      rw [if_pos (by omega)] at heq
      cases heq
      rw [hinc, ih (i + 1) _ (by omega) (hlen2 _)]
      simp [List.range'_succ]
    · next e heq =>
      unfold push at heq
      rw [if_pos (by omega)] at heq
      cases heq

theorem generateGrayCodeLoop_throws (n : Nat) (total : Option Nat)
    (htot : ∀ i, i < 4294967296 → lessThan i total = true) :
    ∀ (k i : Nat) (result : List JSString), i + k = 4294967295 → result.length = i →
      generateGrayCodeLoop n total i result = Except.error JSError.rangeError := by
  intro k
  induction k with
  | zero =>
    intro i result hik hlen
    rw [generateGrayCodeLoop]
    simp only [htot i (by omega), if_true]
    split
    · next pushed heq =>
      unfold push at heq
      rw [if_neg (by omega)] at heq
      cases heq
    · rfl
  | succ k ih =>
    intro i result hik hlen
    rw [generateGrayCodeLoop]
    have hinc : increment i = i + 1 := by
      unfold increment
      rw [if_pos (by omega)]
    have hlen2 : ∀ x : JSString, (result ++ [x]).length = i + 1 := by
      intro x
      simp [hlen]
    simp only [htot i (by omega), if_true]
    split
    · next pushed heq =>
      unfold push at heq
      rw [if_pos (by omega)] at heq
      cases heq
      rw [hinc]
      exact ih (i + 1) _ (by omega) (hlen2 _)
    · rfl

theorem two_pow_32 : (2 : Nat) ^ 32 = 4294967296 := by norm_num

theorem generateGrayCode_returns (n : Nat) (h : n ≤ 31) :
    generateGrayCode n = Except.ok (grayCodeList n) := by
  have hlt : 2 ^ n < 4294967296 := by
    rw [← two_pow_32]
    exact Nat.pow_lt_pow_right (by norm_num) (by omega)
  unfold generateGrayCode mathPowTwo
  rw [if_pos (by omega), generateGrayCodeLoop_ok n (2 ^ n) hlt (2 ^ n) 0 [] (by omega) rfl,
    List.nil_append, ← List.range_eq_range']
  rfl

theorem generateGrayCode_throws (n : Nat) (h : 32 ≤ n) :
    generateGrayCode n = Except.error JSError.rangeError := by
  unfold generateGrayCode
  apply generateGrayCodeLoop_throws n (mathPowTwo n) _ 4294967295 0 [] (by omega) rfl
  intro i hi
  unfold mathPowTwo
  split
  · have hle : 2 ^ 32 ≤ 2 ^ n := Nat.pow_le_pow_right (by norm_num) h
    rw [two_pow_32] at hle
    simp only [lessThan, decide_eq_true_eq]
    omega
  · rfl

theorem graySequence_eq (s : State) (h : s.bits ≤ 31) : graySequence s = grayCodeList s.bits := by
  unfold graySequence
  rw [generateGrayCode_returns s.bits h]

theorem graySequence_length (s : State) (h : s.bits ≤ 31) :
    (graySequence s).length = 2 ^ s.bits := by
  rw [graySequence_eq s h, grayCodeList_length]

theorem bitChar_mem (b : Bool) : bitChar b = '0' ∨ bitChar b = '1' := by
  cases b <;> simp [bitChar]

theorem bitChar_injective {a b : Bool} (h : bitChar a = bitChar b) : a = b := by
  cases a <;> cases b <;> simp [bitChar] at h ⊢

theorem bitsMSB_binary (n v : Nat) : ∀ c ∈ bitsMSB n v, c = '0' ∨ c = '1' := by
  intro c hc
  simp only [bitsMSB, List.mem_map] at hc
  obtain ⟨m, _, rfl⟩ := hc
  exact bitChar_mem _

/-! ## Trailing zeros and the bit that changes between neighbours -/

theorem trailingZerosAux_fuel (f1 : Nat) :
    ∀ (f2 i : Nat), i ≤ f1 → i ≤ f2 → trailingZerosAux f1 i = trailingZerosAux f2 i := by
  induction f1 with
  | zero =>
    intro f2 i h1 _
    have : i = 0 := by omega
    subst this
    cases f2 <;> simp [trailingZerosAux]
  | succ k ih =>
    intro f2 i h1 h2
    cases f2 with
    | zero =>
      have : i = 0 := by omega
      subst this
      simp [trailingZerosAux]
    | succ m =>
      unfold trailingZerosAux
      by_cases hc : i = 0 ∨ i % 2 = 1
      · rw [if_pos hc, if_pos hc]
      · rw [if_neg hc, if_neg hc, ih m (i / 2) (by omega) (by omega)]

theorem trailingZeros_odd (j : Nat) (h : j % 2 = 1) : trailingZeros j = 0 := by
  unfold trailingZeros
  obtain ⟨k, rfl⟩ : ∃ k, j = k + 1 := ⟨j - 1, by omega⟩
  unfold trailingZerosAux
  rw [if_pos (Or.inr h)]

theorem trailingZeros_even (j : Nat) (h0 : 1 ≤ j) (h : j % 2 = 0) :
    trailingZeros j = trailingZeros (j / 2) + 1 := by
  unfold trailingZeros
  obtain ⟨k, rfl⟩ : ∃ k, j = k + 1 := ⟨j - 1, by omega⟩
  conv_lhs => unfold trailingZerosAux
  rw [if_neg (by omega), trailingZerosAux_fuel k ((k + 1) / 2) ((k + 1) / 2) (by omega) (by omega)]

theorem two_pow_trailingZeros_le (j : Nat) (h0 : 1 ≤ j) : 2 ^ trailingZeros j ≤ j := by
  induction j using Nat.strong_induction_on with
  | _ j ih =>
    rcases Nat.mod_two_eq_zero_or_one j with h | h
    · rw [trailingZeros_even j h0 h, Nat.pow_succ]
      have := ih (j / 2) (by omega) (by omega)
      omega
    · rw [trailingZeros_odd j h]
      simpa using h0

theorem trailingZeros_lt (n j : Nat) (h0 : 1 ≤ j) (hj : j < 2 ^ n) : trailingZeros j < n := by
  have h := Nat.lt_of_le_of_lt (two_pow_trailingZeros_le j h0) hj
  exact (Nat.pow_lt_pow_iff_right (by norm_num)).mp h

theorem trailingZeros_spec (j : Nat) (h0 : 1 ≤ j) :
    2 ^ trailingZeros j ∣ j ∧ ¬ 2 ^ (trailingZeros j + 1) ∣ j := by
  induction j using Nat.strong_induction_on with
  | _ j ih =>
    rcases Nat.mod_two_eq_zero_or_one j with h | h
    · rw [trailingZeros_even j h0 h]
      obtain ⟨⟨a, ha⟩, h2⟩ := ih (j / 2) (by omega) (by omega)
      constructor
      · refine ⟨a, ?_⟩
        rw [Nat.pow_succ, Nat.mul_right_comm, ← ha]
        omega
      · rintro ⟨b, hb⟩
        apply h2
        refine ⟨b, ?_⟩
        rw [Nat.pow_succ, Nat.mul_right_comm] at hb
        omega
    · rw [trailingZeros_odd j h]
      constructor
      · simp
      · simp only [Nat.zero_add, Nat.pow_one]
        omega

theorem testBit_pred_xor (j : Nat) (h0 : 1 ≤ j) :
    ∀ b, ((j - 1).testBit b ^^ j.testBit b) = decide (b ≤ trailingZeros j) := by
  induction j using Nat.strong_induction_on with
  | _ j ih =>
    intro b
    cases b with
    | zero =>
      simp only [Nat.testBit_zero, Nat.zero_le, decide_True]
      rcases Nat.mod_two_eq_zero_or_one j with h | h
      · have : (j - 1) % 2 = 1 := by omega
        simp [h, this]
      · have : (j - 1) % 2 = 0 := by omega
        simp [h, this]
    | succ b =>
      rw [Nat.testBit_succ, Nat.testBit_succ]
      rcases Nat.mod_two_eq_zero_or_one j with h | h
      · have e : (j - 1) / 2 = j / 2 - 1 := by omega
        rw [e, ih (j / 2) (by omega) (by omega) b, trailingZeros_even j h0 h]
        simp
      · have e : (j - 1) / 2 = j / 2 := by omega
        rw [e, trailingZeros_odd j h]
        simp

theorem testBit_gray (i b : Nat) :
    (i ^^^ (i >>> 1)).testBit b = (i.testBit b ^^ i.testBit (b + 1)) := by
  rw [Nat.testBit_xor, Nat.testBit_shiftRight, Nat.add_comm 1 b]

theorem gray_neighbour_bit (j : Nat) (h0 : 1 ≤ j) (b : Nat) :
    (((j - 1) ^^^ ((j - 1) >>> 1)).testBit b ^^ (j ^^^ (j >>> 1)).testBit b)
      = decide (b = trailingZeros j) := by
  rw [testBit_gray, testBit_gray]
  have h1 := testBit_pred_xor j h0 b
  have h2 := testBit_pred_xor j h0 (b + 1)
  have e : (((j - 1).testBit b ^^ (j - 1).testBit (b + 1)) ^^ (j.testBit b ^^ j.testBit (b + 1)))
      = (((j - 1).testBit b ^^ j.testBit b) ^^ ((j - 1).testBit (b + 1) ^^ j.testBit (b + 1))) := by
    cases (j - 1).testBit b <;> cases (j - 1).testBit (b + 1) <;> cases j.testBit b <;>
      cases j.testBit (b + 1) <;> rfl
  rw [e, h1, h2]
  by_cases hb : b ≤ trailingZeros j
  · by_cases hb' : b + 1 ≤ trailingZeros j
    · have : b ≠ trailingZeros j := by omega
      simp [hb, hb', this]
    · have : b = trailingZeros j := by omega
      simp [hb, hb', this]
  · have hb' : ¬ b + 1 ≤ trailingZeros j := by omega
    have : b ≠ trailingZeros j := by omega
    simp [hb, hb', this]

theorem gray_wrap_bit (n : Nat) (h1 : 1 ≤ n) (b : Nat) :
    (((2 ^ n - 1) ^^^ ((2 ^ n - 1) >>> 1)).testBit b ^^ (0 ^^^ (0 >>> 1)).testBit b)
      = decide (b = n - 1) := by
  rw [testBit_gray, testBit_gray, Nat.testBit_two_pow_sub_one, Nat.testBit_two_pow_sub_one]
  simp only [Nat.zero_testBit, Bool.xor_false]
  by_cases hb : b < n
  · by_cases hb' : b + 1 < n
    · have : b ≠ n - 1 := by omega
      simp [hb, hb', this]
    · have : b = n - 1 := by omega
      rw [decide_eq_true hb, decide_eq_false hb', decide_eq_true this]
      rfl
  · have hb' : ¬ b + 1 < n := by omega
    have : b ≠ n - 1 := by omega
    simp [hb, hb', this]

/-! ## The scan of `getChangedBit` -/

theorem getChangedBitLoop_found (p q : JSString) (m : Nat) :
    ∀ (k i : Nat), i ≤ m → m < i + k → (∀ j, i ≤ j → j < m → p[j]? = q[j]?) →
      p[m]? ≠ q[m]? → getChangedBitLoop p q k i = (m : Int) := by
  intro k
  induction k with
  | zero => intro i h1 h2; omega
  | succ k ih =>
    intro i h1 h2 heq hd
    unfold getChangedBitLoop
    by_cases hi : p[i]? ≠ q[i]?
    · rw [if_pos hi]
      have : i = m := by
        by_contra hne
        exact hi (heq i (Nat.le_refl i) (by omega))
      rw [this]
    · rw [if_neg hi]
      have hne : i ≠ m := by
        rintro rfl
        exact hi hd
      exact ih (i + 1) (by omega) (by omega) (fun j hj1 hj2 => heq j (by omega) hj2) hd

theorem getChangedBitLoop_none (p q : JSString) :
    ∀ (k i : Nat), (∀ j, i ≤ j → j < i + k → p[j]? = q[j]?) →
      getChangedBitLoop p q k i = -1 := by
  intro k
  induction k with
  | zero => intro i _; rfl
  | succ k ih =>
    intro i heq
    unfold getChangedBitLoop
    rw [if_neg (not_not.mpr (heq i (Nat.le_refl i) (by omega)))]
    exact ih (i + 1) (fun j hj1 hj2 => heq j (by omega) (by omega))

theorem getChangedBit_found (p q : JSString) (m : Nat) (hm : m < p.length)
    (hd : p[m]? ≠ q[m]?) (heq : ∀ j, j < m → p[j]? = q[j]?) :
    getChangedBit (some p) q = (m : Int) := by
  have hp : p ≠ [] := by
    rintro rfl
    simp at hm
  simp only [getChangedBit, if_neg hp]
  exact getChangedBitLoop_found p q m p.length 0 (Nat.zero_le m) (by omega)
    (fun j _ hj => heq j hj) hd

theorem getChangedBit_not_found (p q : JSString) (heq : ∀ j, j < p.length → p[j]? = q[j]?) :
    getChangedBit (some p) q = -1 := by
  simp only [getChangedBit]
  split
  · rfl
  · exact getChangedBitLoop_none p q p.length 0 (fun j _ hj => heq j (by omega))

theorem changedBit_of_single_diff (n x y d : Nat) (hd : d < n)
    (h : ∀ b, (x.testBit b ^^ y.testBit b) = decide (b = d)) :
    (∀ m, m < n → ((bitsMSB n x)[m]? ≠ (bitsMSB n y)[m]? ↔ m = n - 1 - d)) ∧
      getChangedBit (some (bitsMSB n x)) (bitsMSB n y) = ((n - 1 - d : Nat) : Int) := by
  have key : ∀ m, m < n → ((bitsMSB n x)[m]? ≠ (bitsMSB n y)[m]? ↔ m = n - 1 - d) := by
    intro m hm
    rw [bitsMSB_getElem? n x m hm, bitsMSB_getElem? n y m hm]
    have hb := h (n - 1 - m)
    constructor
    · intro hne
      have hx : x.testBit (n - 1 - m) ≠ y.testBit (n - 1 - m) := by
        intro e
        exact hne (by rw [e])
      have : (x.testBit (n - 1 - m) ^^ y.testBit (n - 1 - m)) = true := by
        cases hx1 : x.testBit (n - 1 - m) <;> cases hy1 : y.testBit (n - 1 - m) <;>
          simp_all
      rw [this] at hb
      have := of_decide_eq_true hb.symm
      omega
    · intro hmd
      have hdm : n - 1 - m = d := by omega
      rw [decide_eq_true hdm] at hb
      intro e
      have e' := bitChar_injective (Option.some.inj e)
      rw [e'] at hb
      simp at hb
  refine ⟨key, ?_⟩
  apply getChangedBit_found
  · rw [bitsMSB_length]
    omega
  · exact (key (n - 1 - d) (by omega)).mpr rfl
  · intro j hj
    by_contra hne
    have := (key j (by omega)).mp hne
    omega

/-- C5: `getChangedBit` returns `-1` when `prev` is absent, whatever `curr` is; otherwise it
returns the smallest index below the length of `prev` at which the two strings differ, and `-1`
when they agree at every such index; `getChangedBit("001", "011")` is `1`. -/
theorem getChangedBit_first_difference :
    (∀ curr : JSString, getChangedBit none curr = -1) ∧
    (∀ (prev curr : JSString) (m : Nat), m < prev.length → prev[m]? ≠ curr[m]? →
      (∀ j, j < m → prev[j]? = curr[j]?) → getChangedBit (some prev) curr = (m : Int)) ∧
    (∀ prev curr : JSString, (∀ j, j < prev.length → prev[j]? = curr[j]?) →
      getChangedBit (some prev) curr = -1) ∧
    getChangedBit (some ['0', '0', '1']) ['0', '1', '1'] = 1 :=
  ⟨fun _ => rfl, getChangedBit_found, getChangedBit_not_found, by decide⟩

theorem getChangedBit_first_difference_witness :
    getChangedBit (some ['1', '1', '0', '1']) ['1', '1', '1', '0'] = 2 ∧
      getChangedBit (some ['1', '0']) ['1', '0', '1'] = -1 :=
  ⟨getChangedBit_first_difference.2.1 ['1', '1', '0', '1'] ['1', '1', '1', '0'] 2 (by decide) (by decide)
      (by decide),
    getChangedBit_first_difference.2.2.1 ['1', '0'] ['1', '0', '1'] (by decide)⟩

/-! ## Neighbouring codes -/

theorem neighbours_of_single_diff (n i j d : Nat) (h1 : 1 ≤ n) (h31 : n ≤ 31)
    (hi : i < 2 ^ n) (hj : j < 2 ^ n) (hd : d < n)
    (h : ∀ b, ((i ^^^ (i >>> 1)).testBit b ^^ (j ^^^ (j >>> 1)).testBit b) = decide (b = d)) :
    ∃ prev curr, (grayCodeList n)[i]? = some prev ∧ (grayCodeList n)[j]? = some curr ∧
      (∀ m, m < n → (prev[m]? ≠ curr[m]? ↔ m = n - 1 - d)) ∧
      getChangedBit (some prev) curr = ((n - 1 - d : Nat) : Int) := by
  refine ⟨bitsMSB n (grayValue i), bitsMSB n (grayValue j),
    grayCodeList_getElem? n i h1 hi, grayCodeList_getElem? n j h1 hj, ?_⟩
  rw [grayValue_of_lt i (lt_two_pow_31 h31 hi), grayValue_of_lt j (lt_two_pow_31 h31 hj)]
  exact changedBit_of_single_diff n _ _ d hd h

/-! ## The reflection construction -/

theorem bitsMSB_succ_left (n v : Nat) :
    bitsMSB (n + 1) v = bitChar (v.testBit n) :: bitsMSB n v := by
  unfold bitsMSB
  rw [List.range_succ_eq_map, List.map_cons, List.map_map]
  congr 1
  apply List.map_congr_left
  intro m hm
  have hm' : m < n := List.mem_range.mp hm
  simp only [Function.comp, Nat.succ_eq_add_one]
  rw [show n + 1 - 1 - (m + 1) = n - 1 - m by omega]

theorem bitsMSB_congr (n x y : Nat) (h : ∀ b, b < n → x.testBit b = y.testBit b) :
    bitsMSB n x = bitsMSB n y := by
  unfold bitsMSB
  apply List.map_congr_left
  intro m hm
  have hm' : m < n := List.mem_range.mp hm
  rw [h (n - 1 - m) (by omega)]

theorem gray_lt (n j : Nat) (hj : j < 2 ^ n) : j ^^^ (j >>> 1) < 2 ^ n := by
  rw [Nat.shiftRight_eq_div_pow, Nat.pow_one]
  exact Nat.xor_lt_two_pow hj (Nat.lt_of_le_of_lt (Nat.div_le_self j 2) hj)

theorem testBit_two_pow_add (n k b : Nat) (hk : k < 2 ^ n) :
    (2 ^ n + k).testBit b = if b < n then k.testBit b else Nat.testBit 1 (b - n) := by
  have e : 2 ^ n + k = 2 ^ n * 1 + k := by omega
  rw [e, Nat.testBit_mul_pow_two_add 1 hk]

theorem gray_upper_half_top (n k : Nat) (hk : k < 2 ^ n) :
    ((2 ^ n + k) ^^^ ((2 ^ n + k) >>> 1)).testBit n = true := by
  rw [testBit_gray, testBit_two_pow_add n k n hk, testBit_two_pow_add n k (n + 1) hk]
  have e : n + 1 - n = 0 + 1 := by omega
  simp [e, Nat.testBit_succ]

theorem gray_upper_half_low (n k b : Nat) (hk : k < 2 ^ n) (hb : b < n) :
    ((2 ^ n + k) ^^^ ((2 ^ n + k) >>> 1)).testBit b
      = ((2 ^ n - (k + 1)) ^^^ ((2 ^ n - (k + 1)) >>> 1)).testBit b := by
  rw [testBit_gray, testBit_gray, testBit_two_pow_add n k b hk,
    testBit_two_pow_add n k (b + 1) hk, Nat.testBit_two_pow_sub_succ hk,
    Nat.testBit_two_pow_sub_succ hk]
  by_cases hb' : b + 1 < n
  · simp [hb, hb']
  · have e : b + 1 - n = 0 := by omega
    simp [hb, hb', e]

theorem grayCodeList_reflect (n : Nat) (h1 : 1 ≤ n) (h31 : n + 1 ≤ 31) :
    grayCodeList (n + 1) =
      (grayCodeList n).map (fun code => '0' :: code) ++
        (grayCodeList n).reverse.map (fun code => '1' :: code) := by
  apply List.ext_getElem?
  intro j
  have hpow : 2 ^ (n + 1) = 2 ^ n + 2 ^ n := by rw [Nat.pow_succ]; omega
  rw [List.getElem?_append, List.length_map, grayCodeList_length]
  by_cases hj : j < 2 ^ n
  · rw [if_pos hj, List.getElem?_map, grayCodeList_getElem? n j h1 hj,
      grayCodeList_getElem? (n + 1) j (by omega) (by omega)]
    have hj31 : j < 2147483648 := lt_two_pow_31 (by omega : n ≤ 31) hj
    rw [grayValue_of_lt j hj31, bitsMSB_succ_left, Nat.testBit_lt_two_pow (gray_lt n j hj)]
    rfl
  · rw [if_neg hj, List.getElem?_map]
    by_cases hj2 : j < 2 ^ (n + 1)
    · obtain ⟨k, rfl⟩ : ∃ k, j = 2 ^ n + k := ⟨j - 2 ^ n, by omega⟩
      have hk : k < 2 ^ n := by omega
      have e1 : 2 ^ n + k - 2 ^ n = k := by omega
      rw [e1, List.getElem?_reverse (by rw [grayCodeList_length]; exact hk),
        grayCodeList_length,
        grayCodeList_getElem? n (2 ^ n - 1 - k) h1 (by omega),
        grayCodeList_getElem? (n + 1) (2 ^ n + k) (by omega) hj2]
      have hj31 : 2 ^ n + k < 2147483648 := lt_two_pow_31 h31 hj2
      have hk31 : 2 ^ n - 1 - k < 2147483648 := by omega
      have e2 : 2 ^ n - 1 - k = 2 ^ n - (k + 1) := by omega
      rw [grayValue_of_lt _ hj31, grayValue_of_lt _ hk31, bitsMSB_succ_left,
        gray_upper_half_top n k hk, e2,
        bitsMSB_congr n _ _ (fun b hb => gray_upper_half_low n k b hk hb)]
      rfl
    · rw [List.getElem?_eq_none (by rw [grayCodeList_length]; omega),
        List.getElem?_eq_none (by rw [List.length_reverse, grayCodeList_length]; omega)]
      rfl

theorem grayCodeList_one : grayCodeList 1 = [['0'], ['1']] := by decide

/-! ## The sequence enumerates all bit strings -/

theorem reflection_perm (l : List JSString) (n : Nat) (hn : l.Nodup)
    (hm : ∀ s : JSString, s ∈ l ↔ (s.length = n ∧ ∀ ch ∈ s, ch = '0' ∨ ch = '1')) :
    (l.map (fun code => '0' :: code) ++ l.reverse.map (fun code => '1' :: code)).Nodup ∧
      ∀ s : JSString,
        s ∈ l.map (fun code => '0' :: code) ++ l.reverse.map (fun code => '1' :: code) ↔
          (s.length = n + 1 ∧ ∀ ch ∈ s, ch = '0' ∨ ch = '1') := by
  constructor
  · rw [List.nodup_append]
    refine ⟨hn.map List.cons_injective, (List.nodup_reverse.mpr hn).map List.cons_injective, ?_⟩
    intro s h0 h1
    rw [List.mem_map] at h0 h1
    obtain ⟨a, _, rfl⟩ := h0
    obtain ⟨b, _, hb⟩ := h1
    simp at hb
  · intro s
    rw [List.mem_append, List.mem_map, List.mem_map]
    constructor
    · rintro (⟨a, ha, rfl⟩ | ⟨a, ha, rfl⟩)
      · obtain ⟨hl, hbin⟩ := (hm a).mp ha
        refine ⟨by simp [hl], ?_⟩
        intro ch hch
        rcases List.mem_cons.mp hch with rfl | h
        · exact Or.inl rfl
        · exact hbin ch h
      · obtain ⟨hl, hbin⟩ := (hm a).mp (List.mem_reverse.mp ha)
        refine ⟨by simp [hl], ?_⟩
        intro ch hch
        rcases List.mem_cons.mp hch with rfl | h
        · exact Or.inr rfl
        · exact hbin ch h
    · rintro ⟨hl, hbin⟩
      cases s with
      | nil => simp at hl
      | cons ch t =>
        have ht : t ∈ l :=
          (hm t).mpr ⟨by simpa using hl, fun x hx => hbin x (List.mem_cons_of_mem ch hx)⟩
        rcases hbin ch (List.mem_cons_self ch t) with rfl | rfl
        · exact Or.inl ⟨t, ht, rfl⟩
        · exact Or.inr ⟨t, List.mem_reverse.mpr ht, rfl⟩

theorem grayCodeList_nodup_mem (n : Nat) (h31 : n + 1 ≤ 31) :
    (grayCodeList (n + 1)).Nodup ∧
      ∀ s : JSString, s ∈ grayCodeList (n + 1) ↔
        (s.length = n + 1 ∧ ∀ ch ∈ s, ch = '0' ∨ ch = '1') := by
  induction n with
  | zero =>
    have e : grayCodeList (0 + 1) =
        ([[]] : List JSString).map (fun code => '0' :: code) ++
          ([[]] : List JSString).reverse.map (fun code => '1' :: code) := by decide
    rw [e]
    apply reflection_perm
    · simp
    · intro s
      simp only [List.mem_singleton, List.length_eq_zero]
      constructor
      · rintro rfl
        exact ⟨rfl, fun ch hch => absurd hch (List.not_mem_nil ch)⟩
      · exact fun h => h.1
  | succ m ih =>
    rw [grayCodeList_reflect (m + 1) (by omega) h31]
    obtain ⟨h1, h2⟩ := ih (by omega)
    exact reflection_perm _ _ h1 h2

/-! ## The value shown as decimal -/

theorem digitValue_bitChar (b : Bool) : (digitValue (bitChar b)).getD 0 = if b then 1 else 0 := by
  cases b <;> decide

theorem foldl_bitsMSB (n : Nat) : ∀ v, v < 2 ^ n →
    (bitsMSB n v).foldl (fun acc ch => 2 * acc + (digitValue ch).getD 0) 0 = v := by
  induction n with
  | zero =>
    intro v hv
    simp at hv
    subst hv
    rfl
  | succ n ih =>
    intro v hv
    have hv2 : v / 2 < 2 ^ n := by
      rw [Nat.pow_succ] at hv; omega
    rw [bitsMSB_succ, List.foldl_append, ih (v / 2) hv2]
    simp only [List.foldl_cons, List.foldl_nil, digitValue_bitChar]
    rcases Nat.mod_two_eq_zero_or_one v with h | h <;> simp [h] <;> omega

theorem parseInt_binary (l : JSString) (hne : l ≠ [])
    (hb : ∀ ch ∈ l, ch = '0' ∨ ch = '1') :
    parseInt l 2 =
      some ((l.foldl (fun acc ch => 2 * acc + (digitValue ch).getD 0) 0 : Nat) : Int) := by
  have htake : l.takeWhile (isRadixDigit 2) = l := by
    rw [List.takeWhile_eq_self_iff]
    intro x hx
    rcases hb x hx with rfl | rfl <;> decide
  cases l with
  | nil => exact absurd rfl hne
  | cons a t =>
    have ha : a = '0' ∨ a = '1' := hb a (List.mem_cons_self a t)
    have hws : isStrWhiteSpaceChar a = false := by
      rcases ha with rfl | rfl <;> decide
    have hminus : a ≠ '-' := by
      rcases ha with rfl | rfl <;> decide
    have hplus : a ≠ '+' := by
      rcases ha with rfl | rfl <;> decide
    unfold parseInt
    simp [List.dropWhile_cons, hws, hminus, hplus, htake]

theorem binaryToDecimal_bitsMSB (n v : Nat) (h1 : 1 ≤ n) (hv : v < 2 ^ n) :
    binaryToDecimal (bitsMSB n v) = some (v : Int) := by
  unfold binaryToDecimal
  rw [parseInt_binary (bitsMSB n v) _ (bitsMSB_binary n v), foldl_bitsMSB n v hv]
  intro h
  have := bitsMSB_length n v
  rw [h] at this
  simp at this
  omega

theorem gray_eq_self_iff (i : Nat) : i ^^^ (i >>> 1) = i ↔ i = 0 ∨ i = 1 := by
  rw [Nat.shiftRight_eq_div_pow, Nat.pow_one]
  constructor
  · intro h
    have h2 : i / 2 = 0 := by
      have := Nat.xor_cancel_left i (i / 2)
      rw [h, Nat.xor_self] at this
      exact this.symm
    omega
  · intro h
    have h2 : i / 2 = 0 := by omega
    rw [h2, Nat.xor_zero]

theorem grayValue_eq_self_iff (i : Nat) : grayValue i = i ↔ i = 0 ∨ i = 1 := by
  by_cases h : i < 2147483648
  · rw [grayValue_of_lt i h]
    exact gray_eq_self_iff i
  · have := grayValue_lt_two_pow_31 i
    constructor
    · intro e
      omega
    · intro e
      omega

/-! ## The position stays inside the sequence -/

/-- C7 (amended): in every state reachable from the initial state (3 bits, position 0) by timer
ticks, clicks on an entry, reset and bit-width changes to a value from 2 to 6, the bit width is
between 2 and 6, the sequence has `2 ^ bits` entries and the position is an index of the
sequence: `0 ≤ position ≤ length - 1`. A timer tick moves the position to the next index and
from the last index back to `0`. -/
theorem position_in_range (s : State) (h : Reachable s) :
    2 ≤ s.bits ∧ s.bits ≤ 6 ∧ (graySequence s).length = 2 ^ s.bits ∧
      s.currentIndex ≤ (graySequence s).length - 1 ∧ s.currentIndex < (graySequence s).length ∧
      (tick s).currentIndex =
        if s.currentIndex = (graySequence s).length - 1 then 0 else s.currentIndex + 1 := by
  have key : 2 ≤ s.bits ∧ s.bits ≤ 6 ∧ s.currentIndex < (graySequence s).length := by
    induction h with
    | init =>
      refine ⟨by decide, by decide, ?_⟩
      rw [graySequence_length initialState (by decide)]
      decide
    | step hs hstep ih =>
      obtain ⟨ih1, ih2, ih3⟩ := ih
      cases hstep with
      | tick hp =>
        exact ⟨ih1, ih2, Nat.mod_lt _ (Nat.lt_of_le_of_lt (Nat.zero_le _) ih3)⟩
      | click idx ht hidx => exact ⟨ih1, ih2, hidx⟩
      | reset ht => exact ⟨ih1, ih2, Nat.lt_of_le_of_lt (Nat.zero_le _) ih3⟩
      | changeBits value ht h2 h6 =>
        refine ⟨h2, h6, ?_⟩
        rw [graySequence_length _ (Nat.le_trans h6 (by decide))]
        exact Nat.two_pow_pos value
      | changeSpeed k ht hk1 hk2 => exact ⟨ih1, ih2, ih3⟩
      | togglePlay ht => exact ⟨ih1, ih2, ih3⟩
      | selectTab tab => exact ⟨ih1, ih2, ih3⟩
  obtain ⟨k1, k2, k3⟩ := key
  refine ⟨k1, k2, graySequence_length s (by omega), by omega, k3, ?_⟩
  show (s.currentIndex + 1) % (graySequence s).length = _
  split
  · next hlast =>
    have e : s.currentIndex + 1 = (graySequence s).length := by omega
    rw [e, Nat.mod_self]
  · next hlast =>
    exact Nat.mod_eq_of_lt (by omega)

theorem position_in_range_witness :
    2 ≤ (tick { initialState with isPlaying := true }).bits ∧
      (tick { initialState with isPlaying := true }).bits ≤ 6 ∧
      (graySequence (tick { initialState with isPlaying := true })).length
        = 2 ^ (tick { initialState with isPlaying := true }).bits ∧
      (tick { initialState with isPlaying := true }).currentIndex
        ≤ (graySequence (tick { initialState with isPlaying := true })).length - 1 ∧
      (tick { initialState with isPlaying := true }).currentIndex
        < (graySequence (tick { initialState with isPlaying := true })).length ∧
      (tick (tick { initialState with isPlaying := true })).currentIndex =
        if (tick { initialState with isPlaying := true }).currentIndex
            = (graySequence (tick { initialState with isPlaying := true })).length - 1
        then 0 else (tick { initialState with isPlaying := true }).currentIndex + 1 :=
  position_in_range (tick { initialState with isPlaying := true })
    (Reachable.step (Reachable.step Reachable.init (Step.togglePlay initialState rfl))
      (Step.tick { initialState with isPlaying := true } rfl))

/-- C7 does not hold with the range `[0, length - 1)`: clicking the last entry of the initial
sequence reaches position `7 = length - 1`. -/
theorem position_reaches_last_entry :
    ∃ s, Reachable s ∧ s.currentIndex = 7 ∧ (graySequence s).length = 8 ∧
      ¬ s.currentIndex < (graySequence s).length - 1 :=
  ⟨clickEntry initialState 7,
    Reachable.step Reachable.init (Step.click initialState 7 rfl
      (by rw [graySequence_length initialState (by decide)]; decide)),
    rfl, graySequence_length (clickEntry initialState 7) (by decide),
    by rw [graySequence_length (clickEntry initialState 7) (by decide)]; decide⟩

/-! ## The generated sequence -/

theorem gray_code_recursive_succ (n : Nat) (h31 : n + 1 ≤ 31) :
    gray_code_recursive (n + 1) = some (grayCodeList (n + 1)) := by
  induction n with
  | zero => rw [grayCodeList_one]; rfl
  | succ m ih =>
    rw [gray_code_recursive, ih (by omega), grayCodeList_reflect (m + 1) (by omega) h31]

theorem generateGrayCode_not_ok_of_ge (n : Nat) (h : 32 ≤ n) (sequence : List JSString) :
    generateGrayCode n ≠ Except.ok sequence := by
  rw [generateGrayCode_throws n h]
  intro hc
  cases hc

/-- C3 (amended): for every bit width up to 31 (in particular from 1 to 8) `generateGrayCode`
returns a list of exactly `2 ^ bitWidth` entries. -/
theorem sequence_length_eq_two_pow (bitWidth : Nat) (h31 : bitWidth ≤ 31) :
    ∃ sequence, generateGrayCode bitWidth = Except.ok sequence ∧
      sequence.length = 2 ^ bitWidth :=
  ⟨grayCodeList bitWidth, generateGrayCode_returns bitWidth h31, grayCodeList_length bitWidth⟩

theorem sequence_length_eq_two_pow_witness :
    ∃ sequence, generateGrayCode 8 = Except.ok sequence ∧ sequence.length = 2 ^ 8 :=
  sequence_length_eq_two_pow 8 (by decide)

/-- C3 does not hold at bit width 32: the call throws a `RangeError` on its last push and
returns no list. -/
theorem no_sequence_at_width_32 :
    generateGrayCode 32 = Except.error JSError.rangeError ∧
      ¬ ∃ sequence, generateGrayCode 32 = Except.ok sequence ∧ sequence.length = 2 ^ 32 := by
  refine ⟨generateGrayCode_throws 32 (by decide), ?_⟩
  rintro ⟨sequence, h, _⟩
  exact generateGrayCode_not_ok_of_ge 32 (by decide) sequence h

/-- C4 (amended): for every bit width from 1 to 31 and every index `i` below `2 ^ bitWidth`,
entry `i` of the generated sequence exists, has exactly `bitWidth` characters and each of them
is `'0'` or `'1'`. -/
theorem entry_length_and_digits (bitWidth i : Nat) (h1 : 1 ≤ bitWidth) (h31 : bitWidth ≤ 31)
    (hi : i < 2 ^ bitWidth) :
    ∃ sequence code, generateGrayCode bitWidth = Except.ok sequence ∧
      sequence[i]? = some code ∧ code.length = bitWidth ∧ ∀ ch ∈ code, ch = '0' ∨ ch = '1' :=
  ⟨grayCodeList bitWidth, bitsMSB bitWidth (grayValue i),
    generateGrayCode_returns bitWidth h31, grayCodeList_getElem? bitWidth i h1 hi,
    bitsMSB_length _ _, bitsMSB_binary _ _⟩

theorem entry_length_and_digits_witness :
    ∃ sequence code, generateGrayCode 3 = Except.ok sequence ∧
      sequence[5]? = some code ∧ code.length = 3 ∧ ∀ ch ∈ code, ch = '0' ∨ ch = '1' :=
  entry_length_and_digits 3 5 (by decide) (by decide) (by decide)

/-- C4 does not hold at bit width 32: the call throws, so there is no entry `0` of 32
characters. -/
theorem no_entry_shape_at_width_32 :
    generateGrayCode 32 = Except.error JSError.rangeError ∧
      ¬ ∃ sequence code, generateGrayCode 32 = Except.ok sequence ∧
        sequence[0]? = some code ∧ code.length = 32 ∧ ∀ ch ∈ code, ch = '0' ∨ ch = '1' := by
  refine ⟨generateGrayCode_throws 32 (by decide), ?_⟩
  rintro ⟨sequence, code, h, _⟩
  exact generateGrayCode_not_ok_of_ge 32 (by decide) sequence h

/-- C2 (amended): for every bit width from 1 to 31 and every index `i` below `2 ^ bitWidth`,
entry `i` of the generated sequence is the binary digit string of `i ^ (i >> 1)` left-padded
with `'0'` to `bitWidth` characters, where `i ^ (i >> 1)` is the exclusive or of `i` and `i`
shifted right by one bit as natural numbers: character `m` of the entry is the bit of weight
`2 ^ (bitWidth - 1 - m)` of that number. The sequences for the widths 2 and 3 are
`00, 01, 11, 10` and `000, 001, 011, 010, 110, 111, 101, 100`. -/
theorem entry_is_padded_gray_value (bitWidth i : Nat) (h1 : 1 ≤ bitWidth) (h31 : bitWidth ≤ 31)
    (hi : i < 2 ^ bitWidth) :
    (∃ (sequence : List JSString) (code : JSString),
      generateGrayCode bitWidth = Except.ok sequence ∧ sequence[i]? = some code ∧
      code = padStart (numberToString2 (jsXor (i : Int) (jsShiftRight (i : Int) 1))) bitWidth '0' ∧
      jsXor (i : Int) (jsShiftRight (i : Int) 1) = ((i ^^^ (i >>> 1) : Nat) : Int) ∧
      code.length = bitWidth ∧
      ∀ m : Nat, m < bitWidth →
        code[m]? = some (bitChar ((i ^^^ (i >>> 1)).testBit (bitWidth - 1 - m)))) ∧
    generateGrayCode 2 = Except.ok [['0', '0'], ['0', '1'], ['1', '1'], ['1', '0']] ∧
    generateGrayCode 3 = Except.ok [['0', '0', '0'], ['0', '0', '1'], ['0', '1', '1'],
      ['0', '1', '0'], ['1', '1', '0'], ['1', '1', '1'], ['1', '0', '1'], ['1', '0', '0']] := by
  have hv : grayValue i = i ^^^ (i >>> 1) := grayValue_of_lt i (lt_two_pow_31 h31 hi)
  refine ⟨⟨grayCodeList bitWidth, bitsMSB bitWidth (grayValue i),
    generateGrayCode_returns bitWidth h31, grayCodeList_getElem? bitWidth i h1 hi, ?_, ?_,
    bitsMSB_length _ _, ?_⟩, ?_, ?_⟩
  · rw [jsGray_eq, padStart_numberToString2 bitWidth _ h1 (grayValue_lt bitWidth i hi)]
  · rw [jsGray_eq, hv]
  · intro m hm
    rw [← hv]
    exact bitsMSB_getElem? bitWidth (grayValue i) m hm
  · rw [generateGrayCode_returns 2 (by decide)]
    exact congrArg Except.ok (by decide)
  · rw [generateGrayCode_returns 3 (by decide)]
    exact congrArg Except.ok (by decide)

theorem entry_is_padded_gray_value_witness :
    (∃ (sequence : List JSString) (code : JSString),
      generateGrayCode 3 = Except.ok sequence ∧ sequence[5]? = some code ∧
      code = padStart (numberToString2 (jsXor ((5 : Nat) : Int) (jsShiftRight ((5 : Nat) : Int) 1))) 3 '0' ∧
      jsXor ((5 : Nat) : Int) (jsShiftRight ((5 : Nat) : Int) 1) = ((5 ^^^ (5 >>> 1) : Nat) : Int) ∧
      code.length = 3 ∧
      ∀ m : Nat, m < 3 → code[m]? = some (bitChar ((5 ^^^ (5 >>> 1)).testBit (3 - 1 - m)))) ∧
    generateGrayCode 2 = Except.ok [['0', '0'], ['0', '1'], ['1', '1'], ['1', '0']] ∧
    generateGrayCode 3 = Except.ok [['0', '0', '0'], ['0', '0', '1'], ['0', '1', '1'],
      ['0', '1', '0'], ['1', '1', '0'], ['1', '1', '1'], ['1', '0', '1'], ['1', '0', '0']] :=
  entry_is_padded_gray_value 3 5 (by decide) (by decide) (by decide)

/-- C2 does not hold at bit width 32: the call throws, so there is no entry `0` that could be
the padded digit string of `0`. -/
theorem no_entry_at_width_32 :
    generateGrayCode 32 = Except.error JSError.rangeError ∧
      ¬ ∃ (sequence : List JSString) (code : JSString),
        generateGrayCode 32 = Except.ok sequence ∧ sequence[0]? = some code ∧
        code = padStart (numberToString2 (jsXor ((0 : Nat) : Int) (jsShiftRight ((0 : Nat) : Int) 1))) 32 '0' := by
  refine ⟨generateGrayCode_throws 32 (by decide), ?_⟩
  rintro ⟨sequence, code, h, _⟩
  exact generateGrayCode_not_ok_of_ge 32 (by decide) sequence h

/-- C6 (amended): the displayed decimal is the base-2 value of the code
(`binaryToDecimal("101")` is `5`): for every bit width from 1 to 31 and every index `i` below
`2 ^ bitWidth`, the value of entry `i` is `i ^ (i >> 1)`, the exclusive or of `i` and `i`
shifted right by one bit; it equals `i` exactly when `i` is `0` or `1`. -/
theorem binaryToDecimal_generateGrayCode (bitWidth i : Nat) (h1 : 1 ≤ bitWidth)
    (h31 : bitWidth ≤ 31) (hi : i < 2 ^ bitWidth) :
    binaryToDecimal ['1', '0', '1'] = some 5 ∧
    ∃ sequence code, generateGrayCode bitWidth = Except.ok sequence ∧
      sequence[i]? = some code ∧
      binaryToDecimal code = some (jsXor (i : Int) (jsShiftRight (i : Int) 1)) ∧
      binaryToDecimal code = some ((i ^^^ (i >>> 1) : Nat) : Int) ∧
      (binaryToDecimal code = some (i : Int) ↔ i = 0 ∨ i = 1) := by
  have hv : grayValue i = i ^^^ (i >>> 1) := grayValue_of_lt i (lt_two_pow_31 h31 hi)
  have hb := binaryToDecimal_bitsMSB bitWidth (grayValue i) h1 (grayValue_lt bitWidth i hi)
  refine ⟨by decide, grayCodeList bitWidth, bitsMSB bitWidth (grayValue i),
    generateGrayCode_returns bitWidth h31, grayCodeList_getElem? bitWidth i h1 hi, ?_, ?_, ?_⟩
  · rw [hb, jsGray_eq]
  · rw [hb, hv]
  · rw [hb, ← grayValue_eq_self_iff i]
    constructor
    · intro h
      exact Int.ofNat.inj (Option.some.inj h)
    · intro h
      rw [h]

theorem binaryToDecimal_generateGrayCode_witness :
    binaryToDecimal ['1', '0', '1'] = some 5 ∧
    ∃ sequence code, generateGrayCode 3 = Except.ok sequence ∧
      sequence[6]? = some code ∧
      binaryToDecimal code = some (jsXor ((6 : Nat) : Int) (jsShiftRight ((6 : Nat) : Int) 1)) ∧
      binaryToDecimal code = some ((6 ^^^ (6 >>> 1) : Nat) : Int) ∧
      (binaryToDecimal code = some ((6 : Nat) : Int) ↔ 6 = 0 ∨ 6 = 1) :=
  binaryToDecimal_generateGrayCode 3 6 (by decide) (by decide) (by decide)

/-- C6 does not hold at bit width 32: the call throws, so there is no entry `0` whose value
could be shown. -/
theorem no_decimal_at_width_32 :
    generateGrayCode 32 = Except.error JSError.rangeError ∧
      ¬ ∃ sequence code, generateGrayCode 32 = Except.ok sequence ∧
        sequence[0]? = some code ∧
        binaryToDecimal code = some (jsXor ((0 : Nat) : Int) (jsShiftRight ((0 : Nat) : Int) 1)) := by
  refine ⟨generateGrayCode_throws 32 (by decide), ?_⟩
  rintro ⟨sequence, code, h, _⟩
  exact generateGrayCode_not_ok_of_ge 32 (by decide) sequence h

/-- C1 (amended): for every bit width from 1 to 31 and every index `i` of the generated
sequence, entry `i` and its cyclic successor (entry `i + 1`, or entry `0` after the last one)
differ at exactly one index `k`, and `getChangedBit` on that pair returns `k`; also
`getChangedBit("100", "000")` is `0`. -/
theorem adjacent_codes_differ_in_one_bit (bitWidth i : Nat) (h1 : 1 ≤ bitWidth)
    (h31 : bitWidth ≤ 31) (hi : i < 2 ^ bitWidth) :
    (∃ (sequence : List JSString) (prev curr : JSString) (k : Nat),
      generateGrayCode bitWidth = Except.ok sequence ∧ sequence[i]? = some prev ∧
      sequence[(i + 1) % 2 ^ bitWidth]? = some curr ∧ k < bitWidth ∧
      (∀ m : Nat, m < bitWidth → (prev[m]? ≠ curr[m]? ↔ m = k)) ∧
      getChangedBit (some prev) curr = (k : Int)) ∧
    getChangedBit (some ['1', '0', '0']) ['0', '0', '0'] = 0 := by
  refine ⟨?_, by decide⟩
  have hret := generateGrayCode_returns bitWidth h31
  by_cases hlast : i + 1 < 2 ^ bitWidth
  · rw [Nat.mod_eq_of_lt hlast]
    have hd := trailingZeros_lt bitWidth (i + 1) (by omega) hlast
    obtain ⟨prev, curr, hp, hc, hk, hg⟩ :=
      neighbours_of_single_diff bitWidth i (i + 1) (trailingZeros (i + 1)) h1 h31 hi hlast hd
        (gray_neighbour_bit (i + 1) (by omega))
    exact ⟨_, prev, curr, _, hret, hp, hc, by omega, hk, hg⟩
  · have hi2 : i = 2 ^ bitWidth - 1 := by omega
    have hz : (i + 1) % 2 ^ bitWidth = 0 := by
      have : i + 1 = 2 ^ bitWidth := by omega
      rw [this, Nat.mod_self]
    rw [hz]
    subst hi2
    obtain ⟨prev, curr, hp, hc, hk, hg⟩ :=
      neighbours_of_single_diff bitWidth (2 ^ bitWidth - 1) 0 (bitWidth - 1) h1 h31 hi
        (by omega) (by omega) (gray_wrap_bit bitWidth h1)
    exact ⟨_, prev, curr, _, hret, hp, hc, by omega, hk, hg⟩

theorem adjacent_codes_differ_in_one_bit_witness :
    (∃ (sequence : List JSString) (prev curr : JSString) (k : Nat),
      generateGrayCode 3 = Except.ok sequence ∧ sequence[7]? = some prev ∧
      sequence[(7 + 1) % 2 ^ 3]? = some curr ∧ k < 3 ∧
      (∀ m : Nat, m < 3 → (prev[m]? ≠ curr[m]? ↔ m = k)) ∧
      getChangedBit (some prev) curr = (k : Int)) ∧
    getChangedBit (some ['1', '0', '0']) ['0', '0', '0'] = 0 :=
  adjacent_codes_differ_in_one_bit 3 7 (by decide) (by decide) (by decide)

/-- C1 does not hold at bit width 32: the call throws, so there is no pair of entry `0` and
entry `1` that differs in one bit. -/
theorem no_adjacent_pair_at_width_32 :
    generateGrayCode 32 = Except.error JSError.rangeError ∧
      ¬ ∃ (sequence : List JSString) (prev curr : JSString) (k : Nat),
        generateGrayCode 32 = Except.ok sequence ∧ sequence[0]? = some prev ∧
        sequence[(0 + 1) % 2 ^ 32]? = some curr ∧ k < 32 ∧
        (∀ m : Nat, m < 32 → (prev[m]? ≠ curr[m]? ↔ m = k)) ∧
        getChangedBit (some prev) curr = (k : Int) := by
  refine ⟨generateGrayCode_throws 32 (by decide), ?_⟩
  rintro ⟨sequence, prev, curr, k, h, _⟩
  exact generateGrayCode_not_ok_of_ge 32 (by decide) sequence h

/-- C10 (amended): for every bit width `n` from 1 to 31 and every `i` with
`1 ≤ i ≤ 2 ^ n - 1`, the changed bit reported for the step from entry `i - 1` into entry `i` is
`n - 1 - t`, where `t` is the number of trailing zero bits of `i`; it is never `-1`. -/
theorem changedBit_eq_trailingZeros (n i : Nat) (h1 : 1 ≤ n) (h31 : n ≤ 31) (hi1 : 1 ≤ i)
    (hi : i ≤ 2 ^ n - 1) :
    ∃ (sequence : List JSString) (prev curr : JSString),
      generateGrayCode n = Except.ok sequence ∧ sequence[i - 1]? = some prev ∧
      sequence[i]? = some curr ∧
      getChangedBit (some prev) curr = (n : Int) - 1 - (trailingZeros i : Int) ∧
      getChangedBit (some prev) curr ≠ -1 := by
  have hpos : 0 < 2 ^ n := Nat.two_pow_pos n
  have hlt : i < 2 ^ n := by omega
  have hd := trailingZeros_lt n i hi1 hlt
  obtain ⟨prev, curr, hp, hc, _, hg⟩ :=
    neighbours_of_single_diff n (i - 1) i (trailingZeros i) h1 h31 (by omega) hlt hd
      (gray_neighbour_bit i hi1)
  refine ⟨_, prev, curr, generateGrayCode_returns n h31, hp, hc, ?_, ?_⟩
  · rw [hg]
    omega
  · rw [hg]
    omega

theorem changedBit_eq_trailingZeros_witness :
    ∃ (sequence : List JSString) (prev curr : JSString),
      generateGrayCode 3 = Except.ok sequence ∧ sequence[4 - 1]? = some prev ∧
      sequence[4]? = some curr ∧
      getChangedBit (some prev) curr = (3 : Int) - 1 - (trailingZeros 4 : Int) ∧
      getChangedBit (some prev) curr ≠ -1 :=
  changedBit_eq_trailingZeros 3 4 (by decide) (by decide) (by decide) (by decide)

/-- C10 does not hold at bit width 32: the call throws, so no changed bit is reported for the
step into entry `1`. -/
theorem no_changed_bit_at_width_32 :
    generateGrayCode 32 = Except.error JSError.rangeError ∧
      ¬ ∃ (sequence : List JSString) (prev curr : JSString),
        generateGrayCode 32 = Except.ok sequence ∧ sequence[1 - 1]? = some prev ∧
        sequence[1]? = some curr ∧
        getChangedBit (some prev) curr = (32 : Int) - 1 - (trailingZeros 1 : Int) := by
  refine ⟨generateGrayCode_throws 32 (by decide), ?_⟩
  rintro ⟨sequence, prev, curr, h, _⟩
  exact generateGrayCode_not_ok_of_ge 32 (by decide) sequence h

/-- C8 (amended): `generateGrayCode(1)` is `["0", "1"]`, and for every `n` from 2 to 31,
`generateGrayCode(n)` is the codes of `generateGrayCode(n - 1)` each prefixed with `'0'`,
followed by the codes of `generateGrayCode(n - 1)` in reversed order each prefixed with `'1'`;
so it is the result of the recursive reflection function of the algorithm tab. -/
theorem generateGrayCode_eq_reflection (n : Nat) (h2 : 2 ≤ n) (h31 : n ≤ 31) :
    generateGrayCode 1 = Except.ok [['0'], ['1']] ∧
    ∃ sequence previous, generateGrayCode n = Except.ok sequence ∧
      generateGrayCode (n - 1) = Except.ok previous ∧
      sequence = previous.map (fun code => '0' :: code) ++
        previous.reverse.map (fun code => '1' :: code) ∧
      gray_code_recursive n = some sequence := by
  obtain ⟨m, rfl⟩ : ∃ m, n = m + 1 := ⟨n - 1, by omega⟩
  refine ⟨?_, grayCodeList (m + 1), grayCodeList m, generateGrayCode_returns (m + 1) h31,
    generateGrayCode_returns m (by omega), grayCodeList_reflect m (by omega) h31,
    gray_code_recursive_succ m h31⟩
  rw [generateGrayCode_returns 1 (by decide), grayCodeList_one]

theorem generateGrayCode_eq_reflection_witness :
    generateGrayCode 1 = Except.ok [['0'], ['1']] ∧
    ∃ sequence previous, generateGrayCode 3 = Except.ok sequence ∧
      generateGrayCode (3 - 1) = Except.ok previous ∧
      sequence = previous.map (fun code => '0' :: code) ++
        previous.reverse.map (fun code => '1' :: code) ∧
      gray_code_recursive 3 = some sequence :=
  generateGrayCode_eq_reflection 3 (by decide) (by decide)

/-- C8 does not hold at `n = 32`: `generateGrayCode(31)` returns a list, which has a reflection,
but `generateGrayCode(32)` throws and returns no list to compare with it. -/
theorem no_reflection_at_width_32 :
    generateGrayCode 32 = Except.error JSError.rangeError ∧
      (∃ previous, generateGrayCode (32 - 1) = Except.ok previous) ∧
      ¬ ∃ sequence previous, generateGrayCode 32 = Except.ok sequence ∧
        generateGrayCode (32 - 1) = Except.ok previous ∧
        sequence = previous.map (fun code => '0' :: code) ++
          previous.reverse.map (fun code => '1' :: code) := by
  refine ⟨generateGrayCode_throws 32 (by decide),
    ⟨_, generateGrayCode_returns (32 - 1) (by decide)⟩, ?_⟩
  rintro ⟨sequence, previous, h, _⟩
  exact generateGrayCode_not_ok_of_ge 32 (by decide) sequence h

/-- C9 (amended): for every bit width from 1 to 31 the entries of the generated sequence are
pairwise distinct, they are exactly the strings of `bitWidth` characters `'0'` and `'1'`, and
every such string occurs exactly once. -/
theorem generateGrayCode_perm (bitWidth : Nat) (h1 : 1 ≤ bitWidth) (h31 : bitWidth ≤ 31) :
    ∃ sequence, generateGrayCode bitWidth = Except.ok sequence ∧ sequence.Nodup ∧
      (∀ s : JSString, s ∈ sequence ↔
        (s.length = bitWidth ∧ ∀ ch ∈ s, ch = '0' ∨ ch = '1')) ∧
      (∀ s : JSString, s.length = bitWidth → (∀ ch ∈ s, ch = '0' ∨ ch = '1') →
        ∃! k : Nat, sequence[k]? = some s) := by
  obtain ⟨m, rfl⟩ : ∃ m, bitWidth = m + 1 := ⟨bitWidth - 1, by omega⟩
  obtain ⟨hn, hm⟩ := grayCodeList_nodup_mem m h31
  refine ⟨grayCodeList (m + 1), generateGrayCode_returns (m + 1) h31, hn, hm,
    fun s hl hb => ?_⟩
  obtain ⟨k, hk⟩ := List.mem_iff_getElem?.mp ((hm s).mpr ⟨hl, hb⟩)
  refine ⟨k, hk, fun k2 hk2 => ?_⟩
  have hlen : ∀ j : Nat, (grayCodeList (m + 1))[j]? = some s →
      j < (grayCodeList (m + 1)).length := by
    intro j hj
    obtain ⟨h, _⟩ := List.getElem?_eq_some_iff.mp hj
    exact h
  have hne := List.nodup_iff_getElem?_ne_getElem?.mp hn
  by_contra hcon
  rcases Nat.lt_or_gt_of_ne hcon with h | h
  · exact hne k2 k h (hlen k hk) (by rw [hk, hk2])
  · exact hne k k2 h (hlen k2 hk2) (by rw [hk, hk2])

theorem generateGrayCode_perm_witness :
    ∃ sequence, generateGrayCode 2 = Except.ok sequence ∧ sequence.Nodup ∧
      (∀ s : JSString, s ∈ sequence ↔ (s.length = 2 ∧ ∀ ch ∈ s, ch = '0' ∨ ch = '1')) ∧
      (∀ s : JSString, s.length = 2 → (∀ ch ∈ s, ch = '0' ∨ ch = '1') →
        ∃! k : Nat, sequence[k]? = some s) :=
  generateGrayCode_perm 2 (by decide) (by decide)

/-- C9 does not hold at bit width 32: the call throws, so no returned sequence contains the
32 character string of zeros. -/
theorem no_enumeration_at_width_32 :
    generateGrayCode 32 = Except.error JSError.rangeError ∧
      ¬ ∃ sequence, generateGrayCode 32 = Except.ok sequence ∧
        List.replicate 32 '0' ∈ sequence := by
  refine ⟨generateGrayCode_throws 32 (by decide), ?_⟩
  rintro ⟨sequence, h, _⟩
  exact generateGrayCode_not_ok_of_ge 32 (by decide) sequence h

end GrayCodeVisualizer
